import Mathlib

/-
Verification of the computational core of JB_Dashboard (src/JB_Dashboard.py):
the technical-indicator pipeline (`add_technical_indicators`), the Monte Carlo
geometric-Brownian-motion path simulator (`run_monte_carlo`) and the price-table
preprocessor (`process_ticker_data`).

Modelling conventions for the pandas/numpy source code:
- A float value that pandas would display as NaN (missing data or an undefined
  statistic) is modelled as `none : Option ℝ`; ordinary finite float values are
  modelled as real numbers.
- A pandas Series / DataFrame column is a `List (Option ℝ)` (or `List ℝ` when
  the column can hold no NaN, as for a Close column that survived
  `dropna(subset=['Close'])`).
- The random draws `np.random.normal(0, 1, days)` of simulation `i` are
  modelled by an arbitrary sample function `Z : ℕ → ℕ → ℝ` (`Z i j` is the
  j-th draw of simulation i); the distribution of the generator is outside
  the embedding.
- Timestamps (`df.index`, `datetime + timedelta(days=x)`) are modelled as
  integer day numbers; adding `timedelta(days=x)` adds `x`.
-/

noncomputable section

/-- Models `np.log`: for a positive argument the real logarithm; for a
nonpositive argument the float result is not a finite real (`-inf` for `0`,
NaN for negatives) and is modelled as `none`. -/
def logO (x : ℝ) : Option ℝ := if 0 < x then some (Real.log x) else none

/-- Arithmetic mean of a list of reals (pandas `Series.mean` over the valid
values). -/
def listMean (l : List ℝ) : ℝ := l.sum / l.length

/-- Sample variance with `ddof=1` (pandas `Series.var` default) of a list of
reals. -/
def listVar (l : List ℝ) : ℝ :=
  ((l.map (fun x => (x - listMean l) ^ 2)).sum) / ((l.length : ℝ) - 1)

/-- The non-NaN entries of a column, in order (what pandas statistics skip
to). -/
def validVals (xs : List (Option ℝ)) : List ℝ := xs.filterMap id

/-- pandas `Series.mean`: skips NaN; NaN (none) when no valid value exists. -/
def meanOpt (xs : List (Option ℝ)) : Option ℝ :=
  if (validVals xs).length = 0 then none else some (listMean (validVals xs))

/-- pandas `Series.var` (`ddof=1`): skips NaN; NaN (none) when fewer than two
valid values exist. -/
def varOpt (xs : List (Option ℝ)) : Option ℝ :=
  if (validVals xs).length < 2 then none else some (listVar (validVals xs))

/-- Models `df['Close'].pct_change()`: NaN at index 0, then
`(P_i - P_{i-1}) / P_{i-1}`. -/
def pct_change (c : List ℝ) : List (Option ℝ) :=
  match c with
  | [] => []
  | x :: xs => none :: List.zipWith (fun prev cur => some ((cur - prev) / prev)) (x :: xs) xs

/-- Models `np.log(1 + df['Close'].pct_change())` (line 110 of the source). -/
def logReturns (c : List ℝ) : List (Option ℝ) :=
  (pct_change c).map (fun o => o.bind (fun p => logO (1 + p)))

/-- Models `drift = u - 0.5 * var` with `u = log_returns.mean()` and
`var = log_returns.var()` (lines 112-114). -/
def driftOf (c : List ℝ) : Option ℝ :=
  (meanOpt (logReturns c)).bind (fun u => (varOpt (logReturns c)).map (fun v => u - 0.5 * v))

/-- Models `stdev = log_returns.std()` (line 115); pandas `std` is the square root of
the `ddof=1` variance. -/
def stdevOf (c : List ℝ) : Option ℝ := (varOpt (logReturns c)).map Real.sqrt

/-- NaN-propagating float multiplication. -/
def omul (a b : Option ℝ) : Option ℝ := a.bind (fun x => b.map (fun y => x * y))

/-- The loop of lines 128-132: starting from `price_paths = [last_price]`,
repeatedly append the previous price times the next daily return; the result
is `price_paths[1:]` (one value per daily return). -/
def pricePathO : Option ℝ → List (Option ℝ) → List (Option ℝ)
  | _, [] => []
  | p, r :: rs => omul p r :: pricePathO (omul p r) rs

/-- The simulation DataFrame returned by `run_monte_carlo`: its index
(prediction dates) and its `Sim_i` columns. -/
structure MCResult where
  dates : List ℤ
  sims : List (List (Option ℝ))

/-- Models `run_monte_carlo(df, simulations, days)` (lines 106-134): `None` for an
empty input; otherwise `days` prediction dates obtained by adding
`timedelta(days=x)` for `x = 1..days` to the last historical date, and
`simulations` columns, each the cumulative price path driven by the daily
factors `exp(drift + stdev * Z)`. -/
def run_monte_carlo (c : List ℝ) (dates : List ℤ) (Z : ℕ → ℕ → ℝ) (S H : ℕ) :
    Option MCResult :=
  if c.isEmpty then none
  else some ⟨(List.range H).map (fun x : ℕ => dates.getLastD 0 + ((x : ℤ) + 1)),
    (List.range S).map (fun i =>
      pricePathO (some (c.getLastD 0))
        ((List.range H).map (fun j =>
          (driftOf c).bind (fun d =>
            (stdevOf c).map (fun s => Real.exp (d + s * Z i j))))))⟩

/-- Trailing-window mean ending at index `i` (the value pandas
`rolling(window=w).mean()` produces at `i` once `w` observations are
available). -/
def windowMean (w : ℕ) (xs : List ℝ) (i : ℕ) : ℝ :=
  (∑ j in Finset.range w, xs.getD (i - j) 0) / w

/-- Trailing-window sample standard deviation (`ddof=1`) ending at index `i`
(pandas `rolling(window=w).std()`). -/
def windowStd (w : ℕ) (xs : List ℝ) (i : ℕ) : ℝ :=
  Real.sqrt ((∑ j in Finset.range w, (xs.getD (i - j) 0 - windowMean w xs i) ^ 2) / ((w : ℝ) - 1))

/-- pandas `Series.rolling(window=w).mean()` over a NaN-free column: NaN for
the first `w - 1` indices, then the trailing-window mean. -/
def rollingMeanR (w : ℕ) (xs : List ℝ) : List (Option ℝ) :=
  (List.range xs.length).map (fun i => if w ≤ i + 1 then some (windowMean w xs i) else none)

/-- pandas `Series.rolling(window=w).std()` over a NaN-free column. -/
def rollingStdR (w : ℕ) (xs : List ℝ) : List (Option ℝ) :=
  (List.range xs.length).map (fun i => if w ≤ i + 1 then some (windowStd w xs i) else none)

/-- Models `df['Close'].diff()` (line 97): NaN at index 0, then `P_i - P_{i-1}`. -/
def diffO (c : List ℝ) : List (Option ℝ) :=
  match c with
  | [] => []
  | x :: xs => none :: List.zipWith (fun prev cur => some (cur - prev)) (x :: xs) xs

/-- Models `delta.where(delta > 0, 0)` (line 98): keep positive deltas, replace
everything else - including the leading NaN, whose comparison with 0 is
False - by 0. -/
def clipPos (o : Option ℝ) : ℝ :=
  match o with
  | none => 0
  | some d => if 0 < d then d else 0

/-- Models `-delta.where(delta < 0, 0)` (line 99): the absolute value of negative
deltas, 0 elsewhere (the leading NaN again becomes 0 before negation). -/
def clipNeg (o : Option ℝ) : ℝ :=
  match o with
  | none => 0
  | some d => if d < 0 then -d else 0

/-- Models `gain` (line 98): 14-period rolling mean of the clipped positive deltas. -/
def gainL (c : List ℝ) : List (Option ℝ) := rollingMeanR 14 ((diffO c).map clipPos)

/-- Models `loss` (line 99): 14-period rolling mean of the absolute clipped negative
deltas. -/
def lossL (c : List ℝ) : List (Option ℝ) := rollingMeanR 14 ((diffO c).map clipNeg)

/-- Models `100 - (100 / (1 + gain/loss))` at one index, modelling IEEE float
division (lines 100-101): for `loss = 0` the ratio is `±inf` when
`gain ≠ 0` - collapsing the expression to exactly 100 - and NaN (none) when
`gain = 0`; for `loss ≠ 0` it is ordinary real arithmetic. -/
def rsiVal (g l : ℝ) : Option ℝ :=
  if l = 0 then (if g = 0 then none else some 100)
  else some (100 - 100 / (1 + g / l))

/-- The `RSI` column (lines 97-101), combining `gain` and `loss` pointwise
with NaN propagation. -/
def rsiL (c : List ℝ) : List (Option ℝ) :=
  List.zipWith (fun g l => g.bind (fun gv => l.bind (fun lv => rsiVal gv lv))) (gainL c) (lossL c)

/-- Models `Upper_Band = SMA_20 + STD_20 * 2` (line 93), with NaN propagation. -/
def upperL (c : List ℝ) : List (Option ℝ) :=
  List.zipWith (fun m s => m.bind (fun mv => s.map (fun sv => mv + sv * 2)))
    (rollingMeanR 20 c) (rollingStdR 20 c)

/-- Models `Lower_Band = SMA_20 - STD_20 * 2` (line 94), with NaN propagation. -/
def lowerL (c : List ℝ) : List (Option ℝ) :=
  List.zipWith (fun m s => m.bind (fun mv => s.map (fun sv => mv - sv * 2)))
    (rollingMeanR 20 c) (rollingStdR 20 c)

/-- The DataFrame seen by `add_technical_indicators`: its (NaN-free) Close
column plus the five indicator columns, each absent (`none`) until the
function populates it. -/
structure TechDF where
  close : List ℝ
  sma20 : Option (List (Option ℝ))
  std20 : Option (List (Option ℝ))
  upper : Option (List (Option ℝ))
  lower : Option (List (Option ℝ))
  rsi : Option (List (Option ℝ))

/-- Models `add_technical_indicators(df)` (lines 84-103): the input unchanged when
`df.empty or len(df) < 20`, otherwise the input with the five indicator
columns populated. -/
def add_technical_indicators (df : TechDF) : TechDF :=
  if df.close.isEmpty ∨ df.close.length < 20 then df
  else ⟨df.close, some (rollingMeanR 20 df.close), some (rollingStdR 20 df.close),
    some (upperL df.close), some (lowerL df.close), some (rsiL df.close)⟩

/-- One row of a raw price table: Open/High/Low/Close, each possibly NaN. -/
structure Row where
  op : Option ℝ
  hi : Option ℝ
  lo : Option ℝ
  cl : Option ℝ

/-- Models `df[col].fillna(df['Close'])` at one row: keep a present value, replace a
missing one by the row's Close. -/
def fillna (a b : Option ℝ) : Option ℝ :=
  match a with
  | none => b
  | some v => some v

/-- Models `df * 100` at one row (the `is_jpy` scaling). -/
def scaleRow (r : Row) : Row :=
  ⟨r.op.map (fun v => v * 100), r.hi.map (fun v => v * 100),
   r.lo.map (fun v => v * 100), r.cl.map (fun v => v * 100)⟩

/-- A row with no data, used as an out-of-range default. -/
def emptyRow : Row := ⟨none, none, none, none⟩

/-- The quadruple returned by `process_ticker_data`. -/
structure TickerResult where
  price : ℝ
  delta : ℝ
  rows : List Row
  isFlat : Prop

/-- Models `process_ticker_data(df, is_jpy)` (lines 137-168): `(0, 0, empty, False)`
for an empty input or when no row survives `dropna(subset=['Close'])`;
otherwise Open/High/Low are filled from Close, the frame is scaled by 100 when
`is_jpy`, the current price is the last Close (0 if NaN), the delta is the
difference of the last two Closes when at least two rows remain and 0
otherwise (0 if NaN), and `is_flat` holds when more than half of the rows have
`High == Low`. -/
def process_ticker_data (rows0 : List Row) (is_jpy : Bool) : TickerResult :=
  if rows0.isEmpty then ⟨0, 0, [], False⟩
  else
    let rows1 := rows0.filter (fun r => r.cl.isSome)
    if rows1.isEmpty then ⟨0, 0, [], False⟩
    else
      let rows2 := rows1.map (fun r => ⟨fillna r.op r.cl, fillna r.hi r.cl, fillna r.lo r.cl, r.cl⟩)
      let rows3 := if is_jpy then rows2.map scaleRow else rows2
      let currentO := (rows3.getLastD emptyRow).cl
      let deltaO :=
        if 2 ≤ rows3.length then
          currentO.bind (fun cu => ((rows3.getD (rows3.length - 2) emptyRow).cl).map (fun pv => cu - pv))
        else some 0
      ⟨currentO.getD 0, deltaO.getD 0, rows3,
        ((rows3.filter (fun r => r.hi = r.lo)).length : ℝ) / (rows3.length : ℝ) > 1 / 2⟩

/-- Claim-side log returns: `r_t = ln(P_t / P_{t-1})` over the full history. -/
def logReturnsSpec (c : List ℝ) : List ℝ :=
  List.zipWith (fun a b => Real.log (b / a)) c c.tail

/-- Claim-side `gain[i]`: the mean over the trailing 14 days of the
day-over-day deltas with negative deltas replaced by 0. -/
def gainSpec (c : List ℝ) (i : ℕ) : ℝ :=
  (∑ j in Finset.range 14, max (c.getD (i - j) 0 - c.getD (i - j - 1) 0) 0) / 14

/-- Claim-side `loss[i]`: the mean over the trailing 14 days of the absolute
values of the negative day-over-day deltas (positive deltas replaced by 0). -/
def lossSpec (c : List ℝ) (i : ℕ) : ℝ :=
  (∑ j in Finset.range 14, max (c.getD (i - j - 1) 0 - c.getD (i - j) 0) 0) / 14

/-- Spec-side calendar convention for the "business-day-spaced" wording of the
spec: integer day numbers with day 0 a Monday, so a day is a business day
exactly when its residue mod 7 is below 5 (Saturday = 5, Sunday = 6). -/
def isBusinessDay (d : ℤ) : Prop := d % 7 < 5

instance (d : ℤ) : Decidable (isBusinessDay d) := by unfold isBusinessDay; infer_instance

/-- Spec-side reading of "indexed by H future business-day-spaced timestamps":
every produced timestamp falls on a business day. -/
def businessDaySpacedSpec (ds : List ℤ) : Prop := ∀ d ∈ ds, isBusinessDay d

instance (ds : List ℤ) : Decidable (businessDaySpacedSpec ds) := by
  unfold businessDaySpacedSpec; exact List.decidableBAll _ ds

/-! ### List access helpers -/

lemma getD_range_map {α : Type _} (f : ℕ → α) (n i : ℕ) (h : i < n) (d : α) :
    ((List.range n).map f).getD i d = f i := by
  rw [List.getD_eq_getElem?_getD, List.getElem?_map, List.getElem?_range h]
  rfl

lemma getD_map_of_lt {α β : Type _} (f : α → β) (xs : List α) (i : ℕ) (h : i < xs.length)
    (d : β) (e : α) : (xs.map f).getD i d = f (xs.getD i e) := by
  rw [List.getD_eq_getElem?_getD, List.getElem?_map, List.getElem?_eq_getElem h]
  simp [List.getD_eq_getElem?_getD, List.getElem?_eq_getElem h]

lemma getD_zipWith_of_lt {α β γ : Type _} (f : α → β → γ) (xs : List α) (ys : List β) (i : ℕ)
    (hx : i < xs.length) (hy : i < ys.length) (d : γ) (da : α) (db : β) :
    (List.zipWith f xs ys).getD i d = f (xs.getD i da) (ys.getD i db) := by
  rw [List.getD_eq_getElem?_getD, List.getElem?_zipWith', List.getElem?_eq_getElem hx,
    List.getElem?_eq_getElem hy]
  simp [List.getD_eq_getElem?_getD, List.getElem?_eq_getElem hx, List.getElem?_eq_getElem hy]

lemma getD_of_length_le {α : Type _} (xs : List α) (i : ℕ) (h : xs.length ≤ i) (d : α) :
    xs.getD i d = d := by
  rw [List.getD_eq_getElem?_getD, List.getElem?_eq_none h, Option.getD_none]

/-! ### Lengths of the derived columns -/

lemma length_pct_change (c : List ℝ) : (pct_change c).length = c.length := by
  cases c with
  | nil => rfl
  | cons x xs => simp [pct_change]

lemma length_logReturns (c : List ℝ) : (logReturns c).length = c.length := by
  simp [logReturns, length_pct_change]

lemma length_diffO (c : List ℝ) : (diffO c).length = c.length := by
  cases c with
  | nil => rfl
  | cons x xs => simp [diffO]

lemma length_rollingMeanR (w : ℕ) (xs : List ℝ) : (rollingMeanR w xs).length = xs.length := by
  simp [rollingMeanR]

lemma length_rollingStdR (w : ℕ) (xs : List ℝ) : (rollingStdR w xs).length = xs.length := by
  simp [rollingStdR]

lemma length_gainL (c : List ℝ) : (gainL c).length = c.length := by
  simp [gainL, length_rollingMeanR, length_diffO]

lemma length_lossL (c : List ℝ) : (lossL c).length = c.length := by
  simp [lossL, length_rollingMeanR, length_diffO]

lemma length_pricePathO (p : Option ℝ) (rs : List (Option ℝ)) :
    (pricePathO p rs).length = rs.length := by
  induction rs generalizing p with
  | nil => rfl
  | cons r rt ih => simp [pricePathO, ih]

/-! ### Pointwise values of the derived columns -/

lemma getD_rollingMeanR (w : ℕ) (xs : List ℝ) (i : ℕ) (h : i < xs.length) :
    (rollingMeanR w xs).getD i none =
      if w ≤ i + 1 then some (windowMean w xs i) else none := by
  rw [rollingMeanR, getD_range_map _ _ _ h]

lemma getD_rollingStdR (w : ℕ) (xs : List ℝ) (i : ℕ) (h : i < xs.length) :
    (rollingStdR w xs).getD i none =
      if w ≤ i + 1 then some (windowStd w xs i) else none := by
  rw [rollingStdR, getD_range_map _ _ _ h]

lemma getD_diffO (c : List ℝ) (i : ℕ) (h1 : 1 ≤ i) (h2 : i < c.length) :
    (diffO c).getD i none = some (c.getD i 0 - c.getD (i - 1) 0) := by
  match c, i with
  | x :: xs, k + 1 =>
    have hk : k < xs.length := by simpa using h2
    have hk' : k < (x :: xs).length := by simp; omega
    show (none :: List.zipWith (fun prev cur => some (cur - prev)) (x :: xs) xs).getD (k + 1)
        none = _
    rw [List.getD_cons_succ, getD_zipWith_of_lt _ _ _ k hk' hk none 0 0]
    simp

lemma clipPos_some (d : ℝ) : clipPos (some d) = max d 0 := by
  show (if 0 < d then d else 0) = max d 0
  rcases le_or_lt d 0 with h | h
  · rw [if_neg (not_lt.2 h)]; exact (max_eq_right h).symm
  · rw [if_pos h]; exact (max_eq_left h.le).symm

lemma clipNeg_some (d : ℝ) : clipNeg (some d) = max (-d) 0 := by
  show (if d < 0 then -d else 0) = max (-d) 0
  rcases lt_or_le d 0 with h | h
  · rw [if_pos h]; exact (max_eq_left (by linarith)).symm
  · rw [if_neg (not_lt.2 h)]; exact (max_eq_right (by linarith)).symm

lemma clipPos_nonneg (o : Option ℝ) : 0 ≤ clipPos o := by
  cases o with
  | none => exact le_refl 0
  | some d => rw [clipPos_some]; exact le_max_right d 0

/-! ### The RSI columns agree with the claim-side formulas -/

lemma getD_gainL_mean (c : List ℝ) (i : ℕ) (h13 : 13 ≤ i) (hi : i < c.length) :
    (gainL c).getD i none = some (windowMean 14 ((diffO c).map clipPos) i) := by
  rw [gainL, getD_rollingMeanR _ _ _ (by rw [List.length_map, length_diffO]; exact hi),
    if_pos (by omega)]

lemma getD_lossL_mean (c : List ℝ) (i : ℕ) (h13 : 13 ≤ i) (hi : i < c.length) :
    (lossL c).getD i none = some (windowMean 14 ((diffO c).map clipNeg) i) := by
  rw [lossL, getD_rollingMeanR _ _ _ (by rw [List.length_map, length_diffO]; exact hi),
    if_pos (by omega)]

lemma getD_gain_eq_spec (c : List ℝ) (i : ℕ) (h14 : 14 ≤ i) (hi : i < c.length) :
    (gainL c).getD i none = some (gainSpec c i) := by
  rw [getD_gainL_mean c i (by omega) hi]
  congr 1
  unfold windowMean gainSpec
  have hsum : ∑ j in Finset.range 14, ((diffO c).map clipPos).getD (i - j) 0
      = ∑ j in Finset.range 14, max (c.getD (i - j) 0 - c.getD (i - j - 1) 0) 0 := by
    apply Finset.sum_congr rfl
    intro j hj
    have hj14 : j < 14 := Finset.mem_range.1 hj
    have h3 : i - j < (diffO c).length := by rw [length_diffO]; omega
    rw [getD_map_of_lt clipPos _ _ h3 0 none, getD_diffO _ _ (by omega) (by omega),
      clipPos_some]
  rw [hsum]
  norm_num

lemma getD_loss_eq_spec (c : List ℝ) (i : ℕ) (h14 : 14 ≤ i) (hi : i < c.length) :
    (lossL c).getD i none = some (lossSpec c i) := by
  rw [getD_lossL_mean c i (by omega) hi]
  congr 1
  unfold windowMean lossSpec
  have hsum : ∑ j in Finset.range 14, ((diffO c).map clipNeg).getD (i - j) 0
      = ∑ j in Finset.range 14, max (c.getD (i - j - 1) 0 - c.getD (i - j) 0) 0 := by
    apply Finset.sum_congr rfl
    intro j hj
    have hj14 : j < 14 := Finset.mem_range.1 hj
    have h3 : i - j < (diffO c).length := by rw [length_diffO]; omega
    rw [getD_map_of_lt clipNeg _ _ h3 0 none, getD_diffO _ _ (by omega) (by omega),
      clipNeg_some, neg_sub]
  rw [hsum]
  norm_num

lemma gain_windowMean_nonneg (c : List ℝ) (i : ℕ) :
    0 ≤ windowMean 14 ((diffO c).map clipPos) i := by
  unfold windowMean
  apply div_nonneg _ (by norm_num)
  apply Finset.sum_nonneg
  intro j _
  rcases lt_or_le (i - j) (diffO c).length with h | h
  · rw [getD_map_of_lt clipPos _ _ h 0 none]; exact clipPos_nonneg _
  · rw [getD_of_length_le _ _ (by rw [List.length_map]; exact h)]

lemma getD_rsiL_eq (c : List ℝ) (i : ℕ) (hi : i < c.length) :
    (rsiL c).getD i none =
      ((gainL c).getD i none).bind (fun gv =>
        ((lossL c).getD i none).bind (fun lv => rsiVal gv lv)) := by
  rw [rsiL, getD_zipWith_of_lt _ _ _ i (by rw [length_gainL]; exact hi)
    (by rw [length_lossL]; exact hi) none none none]

lemma add_tech_of_long (df : TechDF) (h : 20 ≤ df.close.length) :
    add_technical_indicators df =
      ⟨df.close, some (rollingMeanR 20 df.close), some (rollingStdR 20 df.close),
        some (upperL df.close), some (lowerL df.close), some (rsiL df.close)⟩ := by
  unfold add_technical_indicators
  rw [if_neg]
  intro hor
  rcases hor with hc | hc
  · rw [List.isEmpty_iff] at hc
    rw [hc] at h
    simp at h
  · omega

/-- C2: for a close series of length at least 20 and an index with a full
window of 14 day-over-day deltas (and a nonzero average loss, so that the
float division is by a nonzero number), `add_technical_indicators` populates
the RSI column, `gain` is the 14-day rolling mean of the positive-clipped
deltas, `loss` the 14-day rolling mean of the absolute negative deltas, and
`RSI = 100 - 100/(1 + gain/loss)`. -/
theorem rsi_formula (c : List ℝ) (h20 : 20 ≤ c.length) (i : ℕ) (h14 : 14 ≤ i)
    (hi : i < c.length) (hl : lossSpec c i ≠ 0) :
    (add_technical_indicators ⟨c, none, none, none, none, none⟩).rsi = some (rsiL c) ∧
    (gainL c).getD i none = some (gainSpec c i) ∧
    (lossL c).getD i none = some (lossSpec c i) ∧
    (rsiL c).getD i none = some (100 - 100 / (1 + gainSpec c i / lossSpec c i)) := by
  refine ⟨?_, getD_gain_eq_spec c i h14 hi, getD_loss_eq_spec c i h14 hi, ?_⟩
  · rw [add_tech_of_long _ h20]
  · rw [getD_rsiL_eq c i hi, getD_gain_eq_spec c i h14 hi, getD_loss_eq_spec c i h14 hi]
    show rsiVal (gainSpec c i) (lossSpec c i) = _
    rw [rsiVal, if_neg hl]

/-- The concrete close series used by the RSI witness: twenty alternating
closes, so the day-over-day deltas alternate between +1 and -1. -/
def wClose : List ℝ := [1, 2, 1, 2, 1, 2, 1, 2, 1, 2, 1, 2, 1, 2, 1, 2, 1, 2, 1, 2]

theorem rsi_formula_witness :
    20 ≤ wClose.length ∧ (14 : ℕ) ≤ 14 ∧ 14 < wClose.length ∧ lossSpec wClose 14 ≠ 0 ∧
    (rsiL wClose).getD 14 none =
      some (100 - 100 / (1 + gainSpec wClose 14 / lossSpec wClose 14)) := by
  have hlen : wClose.length = 20 := by norm_num [wClose]
  have hl : lossSpec wClose 14 ≠ 0 := by
    have : lossSpec wClose 14 = 1 / 2 := by
      norm_num [lossSpec, Finset.sum_range_succ, wClose, max_def]
    rw [this]; norm_num
  exact ⟨by omega, le_refl 14, by omega, hl,
    (rsi_formula wClose (by omega) 14 (le_refl 14) (by omega) hl).2.2.2⟩

/-- C5: for fewer than 20 observations (the empty series included),
`add_technical_indicators` returns its input unchanged; in particular no
indicator column gets populated, and the function is total (never raises). -/
theorem short_series_unchanged (df : TechDF) (h : df.close.length < 20) :
    add_technical_indicators df = df ∧
    (add_technical_indicators ⟨df.close, none, none, none, none, none⟩).sma20 = none ∧
    (add_technical_indicators ⟨df.close, none, none, none, none, none⟩).std20 = none ∧
    (add_technical_indicators ⟨df.close, none, none, none, none, none⟩).upper = none ∧
    (add_technical_indicators ⟨df.close, none, none, none, none, none⟩).lower = none ∧
    (add_technical_indicators ⟨df.close, none, none, none, none, none⟩).rsi = none := by
  have h1 : add_technical_indicators df = df := by
    unfold add_technical_indicators; rw [if_pos (Or.inr h)]
  have h2 : add_technical_indicators ⟨df.close, none, none, none, none, none⟩ =
      ⟨df.close, none, none, none, none, none⟩ := by
    unfold add_technical_indicators; rw [if_pos (Or.inr h)]
  exact ⟨h1, by rw [h2], by rw [h2], by rw [h2], by rw [h2], by rw [h2]⟩

theorem short_series_unchanged_witness :
    ((⟨[1], none, none, none, none, none⟩ : TechDF).close.length < 20) ∧
    add_technical_indicators ⟨[1], none, none, none, none, none⟩ =
      ⟨[1], none, none, none, none, none⟩ := by
  refine ⟨by norm_num, ?_⟩
  exact (short_series_unchanged ⟨[1], none, none, none, none, none⟩ (by norm_num)).1

/-- C6: on an empty close series, `add_technical_indicators` returns the empty
input unchanged and `run_monte_carlo` returns an absent result (`None`);
both are total functions, so neither raises. -/
theorem empty_series_behavior (df : TechDF) (h : df.close = []) (dates : List ℤ)
    (Z : ℕ → ℕ → ℝ) (S H : ℕ) :
    add_technical_indicators df = df ∧ run_monte_carlo df.close dates Z S H = none := by
  constructor
  · unfold add_technical_indicators
    rw [if_pos (Or.inl (by rw [h]; rfl))]
  · unfold run_monte_carlo
    rw [h]
    rfl

theorem empty_series_behavior_witness :
    ((⟨[], none, none, none, none, none⟩ : TechDF).close = []) ∧
    add_technical_indicators ⟨[], none, none, none, none, none⟩ =
      ⟨[], none, none, none, none, none⟩ ∧
    run_monte_carlo [] [] (fun _ _ => 0) 50 30 = none := by
  have h := empty_series_behavior ⟨[], none, none, none, none, none⟩ rfl [] (fun _ _ => 0) 50 30
  exact ⟨rfl, h.1, h.2⟩

/-- C7: wherever the 14-period average loss is exactly 0, the RSI value is
either undefined (NaN, when the average gain is 0 too, e.g. for a constant
series) or saturated at exactly 100 (when the average gain is positive). -/
theorem rsi_zero_loss (c : List ℝ) (h20 : 20 ≤ c.length) (i : ℕ)
    (hl : (lossL c).getD i none = some 0) :
    (add_technical_indicators ⟨c, none, none, none, none, none⟩).rsi = some (rsiL c) ∧
    (((gainL c).getD i none = some 0 ∧ (rsiL c).getD i none = none) ∨
      (∃ g : ℝ, (gainL c).getD i none = some g ∧ 0 < g ∧
        (rsiL c).getD i none = some 100)) := by
  have hi : i < c.length := by
    by_contra hx
    push_neg at hx
    rw [getD_of_length_le _ _ (by rw [length_lossL]; exact hx)] at hl
    exact Option.noConfusion hl
  have h13 : 13 ≤ i := by
    by_contra hx
    push_neg at hx
    rw [lossL, getD_rollingMeanR _ _ _ (by rw [List.length_map, length_diffO]; exact hi),
      if_neg (by omega)] at hl
    exact Option.noConfusion hl
  have hgain := getD_gainL_mean c i h13 hi
  have hg0 : 0 ≤ windowMean 14 ((diffO c).map clipPos) i := gain_windowMean_nonneg c i
  have hrsi : (rsiL c).getD i none = rsiVal (windowMean 14 ((diffO c).map clipPos) i) 0 := by
    rw [getD_rsiL_eq c i hi, hgain, hl]
    rfl
  refine ⟨by rw [add_tech_of_long _ h20], ?_⟩
  rcases eq_or_lt_of_le hg0 with he | hlt
  · left
    refine ⟨by rw [hgain, ← he], ?_⟩
    rw [hrsi, ← he, rsiVal, if_pos rfl, if_pos rfl]
  · right
    refine ⟨windowMean 14 ((diffO c).map clipPos) i, hgain, hlt, ?_⟩
    rw [hrsi, rsiVal, if_pos rfl, if_neg hlt.ne']

theorem rsi_zero_loss_witness :
    20 ≤ (List.replicate 20 (1 : ℝ)).length ∧
    (lossL (List.replicate 20 (1 : ℝ))).getD 14 none = some 0 ∧
    (((gainL (List.replicate 20 (1 : ℝ))).getD 14 none = some 0 ∧
        (rsiL (List.replicate 20 (1 : ℝ))).getD 14 none = none) ∨
      (∃ g : ℝ, (gainL (List.replicate 20 (1 : ℝ))).getD 14 none = some g ∧ 0 < g ∧
        (rsiL (List.replicate 20 (1 : ℝ))).getD 14 none = some 100)) := by
  have hlen : (List.replicate 20 (1 : ℝ)).length = 20 := by simp
  have hl : (lossL (List.replicate 20 (1 : ℝ))).getD 14 none = some 0 := by
    rw [getD_lossL_mean _ 14 (by omega) (by omega)]
    congr 1
    unfold windowMean
    rw [Finset.sum_eq_zero, zero_div]
    intro j hj
    have hj14 : j < 14 := Finset.mem_range.1 hj
    have h3 : 14 - j < (diffO (List.replicate 20 (1 : ℝ))).length := by
      rw [length_diffO, hlen]; omega
    rw [getD_map_of_lt clipNeg _ _ h3 0 none, getD_diffO _ _ (by omega) (by rw [hlen]; omega),
      clipNeg_some]
    have e1 : (List.replicate 20 (1 : ℝ)).getD (14 - j) 0 = 1 := by
      rw [List.getD_eq_getElem?_getD, List.getElem?_replicate_of_lt (by omega)]; rfl
    have e2 : (List.replicate 20 (1 : ℝ)).getD (14 - j - 1) 0 = 1 := by
      rw [List.getD_eq_getElem?_getD, List.getElem?_replicate_of_lt (by omega)]; rfl
    rw [e1, e2]
    norm_num
  exact ⟨by omega, hl, (rsi_zero_loss (List.replicate 20 (1 : ℝ)) (by omega) 14 hl).2⟩

/-- C8: at every index with a full 20-observation window (exactly the indices
where both bands are defined), the upper band is `SMA + 2*std`, the lower band
is `SMA - 2*std`, and their difference is 4 times the 20-period rolling
standard deviation at that index. -/
theorem band_width (c : List ℝ) (h20 : 20 ≤ c.length) (i : ℕ) (h19 : 19 ≤ i)
    (hi : i < c.length) :
    (add_technical_indicators ⟨c, none, none, none, none, none⟩).upper = some (upperL c) ∧
    (add_technical_indicators ⟨c, none, none, none, none, none⟩).lower = some (lowerL c) ∧
    (add_technical_indicators ⟨c, none, none, none, none, none⟩).std20 =
      some (rollingStdR 20 c) ∧
    (upperL c).getD i none = some (windowMean 20 c i + windowStd 20 c i * 2) ∧
    (lowerL c).getD i none = some (windowMean 20 c i - windowStd 20 c i * 2) ∧
    (rollingStdR 20 c).getD i none = some (windowStd 20 c i) ∧
    (windowMean 20 c i + windowStd 20 c i * 2) - (windowMean 20 c i - windowStd 20 c i * 2) =
      4 * windowStd 20 c i := by
  have hm : i < (rollingMeanR 20 c).length := by rw [length_rollingMeanR]; exact hi
  have hs : i < (rollingStdR 20 c).length := by rw [length_rollingStdR]; exact hi
  have hu : (upperL c).getD i none = some (windowMean 20 c i + windowStd 20 c i * 2) := by
    rw [upperL, getD_zipWith_of_lt _ _ _ i hm hs none none none,
      getD_rollingMeanR _ _ _ hi, getD_rollingStdR _ _ _ hi, if_pos (by omega),
      if_pos (by omega)]
    rfl
  have hlo : (lowerL c).getD i none = some (windowMean 20 c i - windowStd 20 c i * 2) := by
    rw [lowerL, getD_zipWith_of_lt _ _ _ i hm hs none none none,
      getD_rollingMeanR _ _ _ hi, getD_rollingStdR _ _ _ hi, if_pos (by omega),
      if_pos (by omega)]
    rfl
  refine ⟨by rw [add_tech_of_long _ h20], by rw [add_tech_of_long _ h20],
    by rw [add_tech_of_long _ h20], hu, hlo, ?_, by ring⟩
  rw [getD_rollingStdR _ _ _ hi, if_pos (by omega)]

theorem band_width_witness :
    20 ≤ (List.replicate 20 (5 : ℝ)).length ∧ (19 : ℕ) ≤ 19 ∧
    19 < (List.replicate 20 (5 : ℝ)).length ∧
    (upperL (List.replicate 20 (5 : ℝ))).getD 19 none =
      some (windowMean 20 (List.replicate 20 (5 : ℝ)) 19 +
        windowStd 20 (List.replicate 20 (5 : ℝ)) 19 * 2) := by
  have hlen : (List.replicate 20 (5 : ℝ)).length = 20 := by simp
  exact ⟨by omega, le_refl 19, by omega,
    (band_width (List.replicate 20 (5 : ℝ)) (by omega) 19 (le_refl 19) (by omega)).2.2.2.1⟩

/-! ### The Monte Carlo pipeline -/

lemma zip_log_eq_spec : ∀ (c : List ℝ), (∀ x ∈ c, 0 < x) →
    (List.zipWith (fun prev cur => (some ((cur - prev) / prev) : Option ℝ)) c c.tail).map
        (fun o => o.bind (fun p => logO (1 + p))) =
      (logReturnsSpec c).map some := by
  intro c
  induction c with
  | nil => intro _; rfl
  | cons x xs ih =>
    intro hpos
    cases xs with
    | nil => rfl
    | cons y t =>
      have hx : 0 < x := hpos x (by simp)
      have hy : 0 < y := hpos y (by simp)
      have hxy : (1 : ℝ) + (y - x) / x = y / x := by field_simp
      have hhead : logO (1 + (y - x) / x) = some (Real.log (y / x)) := by
        rw [hxy, logO, if_pos (div_pos hy hx)]
      show (some ((y - x) / x)).bind (fun p => logO (1 + p)) ::
          (List.zipWith _ (y :: t) t).map _ = _
      have htail := ih (fun z hz => hpos z (by simp [hz]))
      show _ :: (List.zipWith (fun prev cur => (some ((cur - prev) / prev) : Option ℝ))
          (y :: t) (y :: t).tail).map (fun o => o.bind (fun p => logO (1 + p))) = _
      rw [htail]
      show logO (1 + (y - x) / x) :: _ = _
      rw [hhead]
      rfl

lemma logReturns_pos (c : List ℝ) (hpos : ∀ x ∈ c, 0 < x) (hne : c ≠ []) :
    logReturns c = none :: (logReturnsSpec c).map some := by
  match c with
  | x :: xs =>
    show ((none : Option ℝ) :: List.zipWith _ (x :: xs) xs).map _ = _
    rw [List.map_cons]
    have := zip_log_eq_spec (x :: xs) hpos
    show (none : Option ℝ).bind _ :: _ = _
    rw [show ((none : Option ℝ).bind (fun p => logO (1 + p))) = none from rfl]
    exact congrArg _ this

lemma validVals_cons_none_map_some (l : List ℝ) :
    validVals ((none : Option ℝ) :: l.map some) = l := by
  simp [validVals]

lemma length_logReturnsSpec (c : List ℝ) (hne : c ≠ []) :
    (logReturnsSpec c).length = c.length - 1 := by
  match c with
  | x :: xs => simp [logReturnsSpec]

lemma stats_of_pos (c : List ℝ) (hpos : ∀ x ∈ c, 0 < x) (hlen : 3 ≤ c.length) :
    driftOf c = some (listMean (logReturnsSpec c) - 0.5 * listVar (logReturnsSpec c)) ∧
    stdevOf c = some (Real.sqrt (listVar (logReturnsSpec c))) := by
  have hne : c ≠ [] := by
    intro h; rw [h] at hlen; simp at hlen
  have hvv : validVals (logReturns c) = logReturnsSpec c := by
    rw [logReturns_pos c hpos hne, validVals_cons_none_map_some]
  have hL : 2 ≤ (logReturnsSpec c).length := by
    rw [length_logReturnsSpec c hne]; omega
  have hmean : meanOpt (logReturns c) = some (listMean (logReturnsSpec c)) := by
    rw [meanOpt, hvv, if_neg (by omega)]
  have hvar : varOpt (logReturns c) = some (listVar (logReturnsSpec c)) := by
    rw [varOpt, hvv, if_neg (by omega)]
  constructor
  · rw [driftOf, hmean, hvar]; rfl
  · rw [stdevOf, hvar]; rfl

lemma omul_none (a : Option ℝ) : omul a none = none := by
  cases a <;> rfl

lemma pricePathO_all_none (p : Option ℝ) (rs : List (Option ℝ)) (h : ∀ r ∈ rs, r = none) :
    ∀ o ∈ pricePathO p rs, o = none := by
  induction rs generalizing p with
  | nil => intro o ho; simp [pricePathO] at ho
  | cons r rt ih =>
    intro o ho
    have hr : r = none := h r (by simp)
    rw [hr] at ho
    rcases List.mem_cons.1 ho with rfl | hmem
    · exact omul_none p
    · exact ih (omul p none) (fun s hs => h s (by simp [hs])) o hmem

lemma pricePathO_getD_some (p : ℝ) (rs : List ℝ) (k : ℕ) (hk : k < rs.length) :
    (pricePathO (some p) (rs.map some)).getD k none = some (p * (rs.take (k + 1)).prod) := by
  induction rs generalizing p k with
  | nil => simp at hk
  | cons r rt ih =>
    cases k with
    | zero =>
      show (omul (some p) (some r) :: _).getD 0 none = _
      simp [omul]
    | succ k =>
      have hk' : k < rt.length := by simpa using hk
      show (omul (some p) (some r) :: _).getD (k + 1) none = _
      rw [List.getD_cons_succ]
      have : omul (some p) (some r) = some (p * r) := rfl
      rw [this, ih (p * r) k hk', List.take_succ_cons, List.prod_cons]
      congr 1
      ring

lemma pricePathO_all_pos (p : ℝ) (hp : 0 < p) (rs : List ℝ) (hrs : ∀ r ∈ rs, 0 < r) :
    ∀ o ∈ pricePathO (some p) (rs.map some), ∃ v, o = some v ∧ 0 < v := by
  induction rs generalizing p with
  | nil => intro o ho; simp [pricePathO] at ho
  | cons r rt ih =>
    intro o ho
    have hr : 0 < r := hrs r (by simp)
    show ∃ v, o = some v ∧ 0 < v
    have hcons : pricePathO (some p) ((r :: rt).map some) =
        some (p * r) :: pricePathO (some (p * r)) (rt.map some) := rfl
    rw [hcons] at ho
    rcases List.mem_cons.1 ho with rfl | hmem
    · exact ⟨p * r, rfl, mul_pos hp hr⟩
    · exact ih (p * r) (mul_pos hp hr) (fun s hs => hrs s (by simp [hs])) o hmem

lemma prod_range_map (f : ℕ → ℝ) (n : ℕ) :
    ((List.range n).map f).prod = ∏ j in Finset.range n, f j := by
  induction n with
  | zero => rfl
  | succ k ih => rw [List.range_succ, Finset.prod_range_succ]; simp [ih]

lemma run_mc_some (c : List ℝ) (dates : List ℤ) (Z : ℕ → ℕ → ℝ) (S H : ℕ) (hne : c ≠ []) :
    run_monte_carlo c dates Z S H =
      some ⟨(List.range H).map (fun x : ℕ => dates.getLastD 0 + ((x : ℤ) + 1)),
        (List.range S).map (fun i =>
          pricePathO (some (c.getLastD 0))
            ((List.range H).map (fun j =>
              (driftOf c).bind (fun d =>
                (stdevOf c).map (fun s => Real.exp (d + s * Z i j))))))⟩ := by
  rw [run_monte_carlo, if_neg]
  intro hx
  exact hne (List.isEmpty_iff.1 hx)

lemma getLastD_pos (c : List ℝ) (hpos : ∀ x ∈ c, 0 < x) (hne : c ≠ []) :
    0 < c.getLastD 0 := by
  have : c.getLastD 0 ∈ c := by
    rw [List.getLastD_eq_getLast?, List.getLast?_eq_getLast c hne]
    exact List.getLast_mem hne
  exact hpos _ this

lemma run_mc_cell_none (c : List ℝ) (dates : List ℤ) (Z : ℕ → ℕ → ℝ) (S H i k : ℕ)
    (hne : c ≠ []) (hd : driftOf c = none) (hiS : i < S) (hkH : k < H) :
    (run_monte_carlo c dates Z S H).map
      (fun r => ((r.sims.getD i []).getD k (some 1)).isSome) = some false := by
  rw [run_mc_some c dates Z S H hne, Option.map_some']
  have hfin : (((((List.range S).map (fun i =>
      pricePathO (some (c.getLastD 0))
        ((List.range H).map (fun j =>
          (driftOf c).bind (fun d =>
            (stdevOf c).map (fun s => Real.exp (d + s * Z i j)))))))).getD i []).getD k
      (some 1)).isSome = false := by
    rw [getD_range_map _ S i hiS []]
    have hmap : (List.range H).map (fun j =>
        (driftOf c).bind (fun d => (stdevOf c).map (fun s => Real.exp (d + s * Z i j)))) =
        (List.range H).map (fun _ => (none : Option ℝ)) := by
      simp [hd]
    rw [hmap]
    set L := pricePathO (some (c.getLastD 0)) ((List.range H).map (fun _ => (none : Option ℝ)))
      with hL
    have hlenL : L.length = H := by rw [hL, length_pricePathO]; simp
    have hk' : k < L.length := by omega
    have hmem : L.getD k (some 1) ∈ L := by
      rw [List.getD_eq_getElem?_getD, List.getElem?_eq_getElem hk']
      exact List.getElem_mem hk'
    have := pricePathO_all_none (some (c.getLastD 0))
      ((List.range H).map (fun _ => (none : Option ℝ))) (by simp) _ hmem
    rw [this]
    rfl
  exact congrArg some hfin

/-- C1 counterexample: on the one-observation close series `[100]` (a
non-empty close-price series), the simulation runs but the first entry of the
first path is NaN - drift and volatility are NaN because no (respectively
fewer than two) log returns exist - so `run_monte_carlo` does not produce `H`
future prices per path given by the claimed exponential-factor formula. -/
theorem run_monte_carlo_single_obs_nan :
    (run_monte_carlo [(100 : ℝ)] [(0 : ℤ)] (fun _ _ => 0) 50 30).map
      (fun r => ((r.sims.getD 0 []).getD 0 (some 1)).isSome) = some false := by
  have hd : driftOf [(100 : ℝ)] = none := rfl
  exact run_mc_cell_none [(100 : ℝ)] [(0 : ℤ)] (fun _ _ => 0) 50 30 0 0
    (by simp) hd (by omega) (by omega)

/-- C1 (amended): for a close-price series with at least 3 observations (so
that at least two log returns exist and the drift/volatility estimates are
defined) and positive closes, `run_monte_carlo` computes the log returns
`ln(P_t/P_{t-1})` over the full history, estimates drift as
`mean(r) - 0.5*var(r)` and volatility as `stdev(r)` (sample statistics,
`ddof=1`), and each of the `S` paths holds `H` future prices, the k-th being
the last observed close times the cumulative product of the factors
`exp(drift + stdev * Z)`. -/
theorem run_monte_carlo_formula_amended (c : List ℝ) (dates : List ℤ) (Z : ℕ → ℕ → ℝ)
    (S H : ℕ) (hpos : ∀ x ∈ c, 0 < x) (hlen : 3 ≤ c.length) :
    driftOf c = some (listMean (logReturnsSpec c) - 0.5 * listVar (logReturnsSpec c)) ∧
    stdevOf c = some (Real.sqrt (listVar (logReturnsSpec c))) ∧
    ∃ r, run_monte_carlo c dates Z S H = some r ∧
      r.sims.length = S ∧
      ∀ i, i < S → (r.sims.getD i []).length = H ∧
        ∀ k, k < H → (r.sims.getD i []).getD k none =
          some (c.getLastD 0 * ∏ j in Finset.range (k + 1),
            Real.exp ((listMean (logReturnsSpec c) - 0.5 * listVar (logReturnsSpec c)) +
              Real.sqrt (listVar (logReturnsSpec c)) * Z i j)) := by
  have hne : c ≠ [] := by intro h; rw [h] at hlen; simp at hlen
  obtain ⟨hdrift, hstdev⟩ := stats_of_pos c hpos hlen
  refine ⟨hdrift, hstdev, ⟨_, run_mc_some c dates Z S H hne, by simp, ?_⟩⟩
  intro i hiS
  have hcol : ((List.range S).map (fun i =>
      pricePathO (some (c.getLastD 0))
        ((List.range H).map (fun j =>
          (driftOf c).bind (fun d =>
            (stdevOf c).map (fun s => Real.exp (d + s * Z i j))))))).getD i [] =
      pricePathO (some (c.getLastD 0))
        (((List.range H).map (fun j =>
          Real.exp ((listMean (logReturnsSpec c) - 0.5 * listVar (logReturnsSpec c)) +
            Real.sqrt (listVar (logReturnsSpec c)) * Z i j))).map some) := by
    rw [getD_range_map _ S i hiS []]
    congr 1
    rw [List.map_map]
    apply List.map_congr_left
    intro j _
    rw [hdrift, hstdev]
    rfl
  rw [hcol]
  constructor
  · rw [length_pricePathO]; simp
  · intro k hkH
    have hklen : k < ((List.range H).map (fun j =>
        Real.exp ((listMean (logReturnsSpec c) - 0.5 * listVar (logReturnsSpec c)) +
          Real.sqrt (listVar (logReturnsSpec c)) * Z i j))).length := by simp; omega
    rw [pricePathO_getD_some _ _ k hklen]
    congr 1
    rw [← List.map_take, List.take_range, min_eq_left (by omega), prod_range_map]

theorem run_monte_carlo_formula_witness :
    (∀ x ∈ ([1, 2, 4] : List ℝ), 0 < x) ∧ 3 ≤ ([1, 2, 4] : List ℝ).length ∧
    driftOf [1, 2, 4] =
      some (listMean (logReturnsSpec [1, 2, 4]) - 0.5 * listVar (logReturnsSpec [1, 2, 4])) := by
  have hpos : ∀ x ∈ ([1, 2, 4] : List ℝ), 0 < x := by
    intro x hx
    rcases List.mem_cons.1 hx with rfl | hx
    · norm_num
    rcases List.mem_cons.1 hx with rfl | hx
    · norm_num
    rcases List.mem_cons.1 hx with rfl | hx
    · norm_num
    · simp at hx
  have hlen : 3 ≤ ([1, 2, 4] : List ℝ).length := by simp
  exact ⟨hpos, hlen,
    (run_monte_carlo_formula_amended [1, 2, 4] [0] (fun _ _ => 0) 2 3 hpos hlen).1⟩

/-- C3 counterexample: on the two-observation series `[100, 200]` (non-empty,
strictly positive last close), only one log return exists, so the `ddof=1`
variance - hence drift and volatility - is NaN, every simulated value is NaN,
and the produced paths are not lists of strictly positive prices. -/
theorem run_monte_carlo_two_obs_nan :
    (run_monte_carlo [(100 : ℝ), 200] [(0 : ℤ)] (fun _ _ => 0) 50 30).map
      (fun r => ((r.sims.getD 0 []).getD 1 (some 1)).isSome) = some false := by
  have hlog : logO (1 + (200 - 100) / 100 : ℝ) = some (Real.log (1 + (200 - 100) / 100)) := by
    rw [logO, if_pos (by norm_num)]
  have hlr : logReturns [(100 : ℝ), 200] =
      [none, some (Real.log (1 + (200 - 100) / 100))] := by
    show [(none : Option ℝ).bind _, (some ((200 - 100) / 100 : ℝ)).bind (fun p => logO (1 + p))]
      = _
    rw [show ((none : Option ℝ).bind (fun p => logO (1 + p))) = none from rfl]
    show [none, logO (1 + (200 - 100) / 100)] = _
    rw [hlog]
  have hvar : varOpt (logReturns [(100 : ℝ), 200]) = none := by
    have hvv : validVals (logReturns [(100 : ℝ), 200]) =
        [Real.log (1 + (200 - 100) / 100)] := by
      rw [hlr]; rfl
    unfold varOpt
    rw [hvv, if_pos (by simp)]
  have hd : driftOf [(100 : ℝ), 200] = none := by
    unfold driftOf
    rw [hvar]
    cases meanOpt (logReturns [(100 : ℝ), 200]) <;> rfl
  exact run_mc_cell_none [(100 : ℝ), 200] [(0 : ℤ)] (fun _ _ => 0) 50 30 0 1
    (by simp) hd (by omega) (by omega)

/-- C3 (amended): for a close series with at least 3 observations and all
closes strictly positive (hence a strictly positive last close), the result of
`run_monte_carlo` is present, has exactly `S` path columns and `H` rows (`H`
prediction dates and `H` entries per column), and every simulated price is
defined and strictly positive. -/
theorem run_monte_carlo_positive_amended (c : List ℝ) (dates : List ℤ) (Z : ℕ → ℕ → ℝ)
    (S H : ℕ) (hpos : ∀ x ∈ c, 0 < x) (hlen : 3 ≤ c.length) :
    ∃ r, run_monte_carlo c dates Z S H = some r ∧
      r.sims.length = S ∧ r.dates.length = H ∧
      ∀ col ∈ r.sims, col.length = H ∧ ∀ o ∈ col, ∃ v, o = some v ∧ 0 < v := by
  have hne : c ≠ [] := by intro h; rw [h] at hlen; simp at hlen
  obtain ⟨hdrift, hstdev⟩ := stats_of_pos c hpos hlen
  refine ⟨_, run_mc_some c dates Z S H hne, by simp, by simp, ?_⟩
  intro col hcol
  obtain ⟨i, _, hi⟩ := List.mem_map.1 hcol
  have hcoleq : col = pricePathO (some (c.getLastD 0))
      (((List.range H).map (fun j =>
        Real.exp ((listMean (logReturnsSpec c) - 0.5 * listVar (logReturnsSpec c)) +
          Real.sqrt (listVar (logReturnsSpec c)) * Z i j))).map some) := by
    rw [← hi]
    congr 1
    rw [List.map_map]
    apply List.map_congr_left
    intro j _
    rw [hdrift, hstdev]
    rfl
  constructor
  · rw [hcoleq, length_pricePathO]; simp
  · rw [hcoleq]
    exact pricePathO_all_pos _ (getLastD_pos c hpos hne) _
      (by
        intro rr hrr
        obtain ⟨j, _, hj⟩ := List.mem_map.1 hrr
        rw [← hj]
        exact Real.exp_pos _)

theorem run_monte_carlo_positive_witness :
    (∀ x ∈ ([2, 4, 8] : List ℝ), 0 < x) ∧ 3 ≤ ([2, 4, 8] : List ℝ).length ∧
    ∃ r, run_monte_carlo [2, 4, 8] [0] (fun _ _ => 0) 5 7 = some r ∧
      r.sims.length = 5 ∧ r.dates.length = 7 ∧
      ∀ col ∈ r.sims, col.length = 7 ∧ ∀ o ∈ col, ∃ v, o = some v ∧ 0 < v := by
  have hpos : ∀ x ∈ ([2, 4, 8] : List ℝ), 0 < x := by
    intro x hx
    rcases List.mem_cons.1 hx with rfl | hx
    · norm_num
    rcases List.mem_cons.1 hx with rfl | hx
    · norm_num
    rcases List.mem_cons.1 hx with rfl | hx
    · norm_num
    · simp at hx
  have hlen : 3 ≤ ([2, 4, 8] : List ℝ).length := by simp
  exact ⟨hpos, hlen,
    run_monte_carlo_positive_amended [2, 4, 8] [0] (fun _ _ => 0) 5 7 hpos hlen⟩

/-- C4 counterexample: with the last historical date a Monday (day 0 in the
spec-side calendar), the produced prediction dates are the 30 consecutive
calendar days 1..30, among which day 5 is a Saturday - the timestamps are not
business-day-spaced. -/
theorem prediction_dates_not_business_days :
    (run_monte_carlo [(100 : ℝ)] [(0 : ℤ)] (fun _ _ => 0) 50 30).map (fun r => r.dates) =
      some ((List.range 30).map (fun x : ℕ => (0 : ℤ) + ((x : ℤ) + 1))) ∧
    ¬ businessDaySpacedSpec ((List.range 30).map (fun x : ℕ => (0 : ℤ) + ((x : ℤ) + 1))) := by
  constructor
  · rfl
  · decide

/-- C4 (amended): for a non-empty input series, `run_monte_carlo` indexes the
`S` paths by `H` consecutive calendar-day timestamps following the last
historical date: the k-th prediction date is the last date plus `k+1` days,
so successive prediction dates are exactly one day apart (weekends are not
skipped). -/
theorem prediction_dates_calendar (c : List ℝ) (dates : List ℤ) (Z : ℕ → ℕ → ℝ) (S H : ℕ)
    (hne : c ≠ []) :
    ∃ r, run_monte_carlo c dates Z S H = some r ∧
      r.dates = (List.range H).map (fun x : ℕ => dates.getLastD 0 + ((x : ℤ) + 1)) ∧
      r.dates.length = H ∧
      (∀ k, k < H → r.dates.getD k 0 = dates.getLastD 0 + ((k : ℤ) + 1)) ∧
      (∀ k, k + 1 < H → r.dates.getD (k + 1) 0 - r.dates.getD k 0 = 1) := by
  refine ⟨_, run_mc_some c dates Z S H hne, rfl, by simp, ?_, ?_⟩
  · intro k hk
    rw [getD_range_map _ H k hk 0]
  · intro k hk
    rw [getD_range_map _ H (k + 1) (by omega) 0, getD_range_map _ H k (by omega) 0]
    push_cast
    ring

theorem prediction_dates_calendar_witness :
    (([5] : List ℝ) ≠ []) ∧
    ∃ r, run_monte_carlo [5] [10] (fun _ _ => 0) 2 3 = some r ∧
      r.dates = (List.range 3).map (fun x : ℕ => ([10] : List ℤ).getLastD 0 + ((x : ℤ) + 1)) ∧
      r.dates.length = 3 ∧
      (∀ k, k < 3 → r.dates.getD k 0 = ([10] : List ℤ).getLastD 0 + ((k : ℤ) + 1)) ∧
      (∀ k, k + 1 < 3 → r.dates.getD (k + 1) 0 - r.dates.getD k 0 = 1) := by
  have hne : ([5] : List ℝ) ≠ [] := by simp
  exact ⟨hne, prediction_dates_calendar [5] [10] (fun _ _ => 0) 2 3 hne⟩

/-! ### The price-table preprocessor -/

lemma process_ticker_rows (rows0 : List Row) :
    (process_ticker_data rows0 false).rows =
      (rows0.filter (fun r => r.cl.isSome)).map
        (fun r => ⟨fillna r.op r.cl, fillna r.hi r.cl, fillna r.lo r.cl, r.cl⟩) := by
  simp only [process_ticker_data]
  by_cases h0 : rows0.isEmpty
  · rw [if_pos h0, List.isEmpty_iff.1 h0]
    rfl
  · rw [if_neg h0]
    by_cases h1 : (List.filter (fun r => r.cl.isSome) rows0).isEmpty
    · rw [if_pos h1]
      have := List.isEmpty_iff.1 h1
      show ([] : List Row) = _
      rw [show rows0.filter (fun r => r.cl.isSome) =
        List.filter (fun r => r.cl.isSome) rows0 from rfl, this]
      rfl
    · rw [if_neg h1]
      rfl

/-- C9: for every input table, `process_ticker_data` (without the JPY
rescaling) keeps exactly the rows whose Close is present, and in each kept
row a missing Open/High/Low is replaced by that row's Close while present
values and the Close column itself are unchanged (`fillna` keeps a present
value and substitutes Close for a missing one). -/
theorem process_rows_retention (rows0 : List Row) :
    (process_ticker_data rows0 false).rows =
      (rows0.filter (fun r => r.cl.isSome)).map
        (fun r => ⟨fillna r.op r.cl, fillna r.hi r.cl, fillna r.lo r.cl, r.cl⟩) ∧
    (∀ b : Option ℝ, fillna none b = b) ∧
    (∀ (v : ℝ) (b : Option ℝ), fillna (some v) b = some v) ∧
    (∀ r ∈ (process_ticker_data rows0 false).rows, r.cl.isSome) := by
  refine ⟨process_ticker_rows rows0, fun b => rfl, fun v b => rfl, ?_⟩
  intro r hr
  rw [process_ticker_rows rows0] at hr
  obtain ⟨s, hs, hsr⟩ := List.mem_map.1 hr
  have := (List.mem_filter.1 hs).2
  rw [← hsr]
  exact this

/-- C10: when exactly one row survives the Close dropna, the current price is
that row's Close and the delta is exactly 0 (the length-two branch is skipped
rather than failing on a missing previous close). -/
theorem process_single_row (rows0 : List Row) (r : Row)
    (h : rows0.filter (fun r => r.cl.isSome) = [r]) :
    (process_ticker_data rows0 false).price = r.cl.getD 0 ∧
    (process_ticker_data rows0 false).delta = 0 := by
  have h0 : rows0.isEmpty = false := by
    cases rows0 with
    | nil => exact absurd h (by simp)
    | cons a t => rfl
  simp only [process_ticker_data]
  rw [if_neg (by simp [h0]), h]
  constructor <;> rfl

theorem process_single_row_witness :
    (([⟨none, none, none, none⟩, ⟨some 1, some 2, some 3, some 7⟩] : List Row).filter
        (fun r => r.cl.isSome) = [⟨some 1, some 2, some 3, some 7⟩]) ∧
    (process_ticker_data [⟨none, none, none, none⟩, ⟨some 1, some 2, some 3, some 7⟩]
        false).price = 7 ∧
    (process_ticker_data [⟨none, none, none, none⟩, ⟨some 1, some 2, some 3, some 7⟩]
        false).delta = 0 := by
  have h := process_single_row
    [⟨none, none, none, none⟩, ⟨some 1, some 2, some 3, some 7⟩]
    ⟨some 1, some 2, some 3, some 7⟩ rfl
  exact ⟨rfl, h.1, h.2⟩

end
